import Mathlib

/-!
Verification of the libzsh interactive ZLE example (`examples/zle_interactive.c`)
against its specification.

The editable line is held in the ZLE globals `zleline` (code units), `zlecs`
(cursor), `zlell` (length) and `linesz` (allocated capacity).  We embed them as
a `LineBuffer` record whose `text` field holds exactly the `zlell` code units
in use, so `zlell` is `text.length`.

The primitive buffer operations `sizeline`, `spaceinline`, `foredel` and
`backdel` are `extern` in the example sources; their behaviour is modelled
from the specification (§4.1).  Everything layered on top — `insert_char`,
`set_line_from_string`, `history_add`, `reverse_search` and the `readline_zle`
dispatch loop — is translated from the C in `examples/zle_interactive.c`.
-/

namespace Zle

/-- The ZLE line buffer: `text` is the list of code units in use
(`zleline[0..zlell)`), `zlecs` the cursor, `linesz` the allocated capacity. -/
structure LineBuffer where
  text : List Char
  zlecs : Nat
  linesz : Nat
deriving DecidableEq, Repr

/-- `zlell`, the line length: number of code units in use. -/
def zlell (b : LineBuffer) : Nat := b.text.length

/-- Modelled from the spec: `sizeline(sz)` (extern in the example) grows the
allocation so that capacity is at least `sz`; capacity never shrinks. -/
def sizeline (b : LineBuffer) (sz : Nat) : LineBuffer :=
  { b with linesz := max b.linesz sz }

/-- Modelled from the spec: `spaceinline(ct)` (extern in the example) grows
capacity if needed and shifts the code units at/after the cursor right by
`ct`, leaving `ct` fresh slots at the cursor and adding `ct` to the length. -/
def spaceinline (b : LineBuffer) (ct : Nat) : LineBuffer :=
  { text := b.text.take b.zlecs ++ List.replicate ct ' ' ++ b.text.drop b.zlecs,
    zlecs := b.zlecs,
    linesz := max b.linesz (b.text.length + ct) }

/-- Modelled from the spec: `foredel(count)` (extern in the example) removes
`min count (length - cursor)` code units starting at the cursor, shifting the
remainder left; the cursor does not move. -/
def foredel (b : LineBuffer) (ct : Nat) : LineBuffer :=
  let n := min ct (b.text.length - b.zlecs)
  { b with text := b.text.take b.zlecs ++ b.text.drop (b.zlecs + n) }

/-- Modelled from the spec: `backdel(count)` (extern in the example) moves the
cursor back by `min count cursor` and then deletes that many units forward. -/
def backdel (b : LineBuffer) (ct : Nat) : LineBuffer :=
  let n := min ct b.zlecs
  foredel { b with zlecs := b.zlecs - n } n

/-- `insert_char` from `zle_interactive.c`: `spaceinline(1)`, write the
character at the cursor, advance the cursor. -/
def insert_char (b : LineBuffer) (c : Char) : LineBuffer :=
  let b1 := spaceinline b 1
  { b1 with text := b1.text.set b1.zlecs c, zlecs := b1.zlecs + 1 }

/-- String insertion at the cursor, as performed in the demo
(`spaceinline(n)` followed by `ZS_memcpy(zleline + zlecs, s, n)` and
`zlecs += n`): the `n` fresh slots at the cursor are overwritten by `s`. -/
def insert (b : LineBuffer) (s : List Char) : LineBuffer :=
  let b1 := spaceinline b s.length
  { b1 with
    text := b1.text.take b1.zlecs ++ s ++ b1.text.drop (b1.zlecs + s.length),
    zlecs := b1.zlecs + s.length }

/-- `set_line_from_string` from `zle_interactive.c`: clear the line, then if
`s` is nonempty grow the buffer, copy `s` in and put the cursor at the end. -/
def set_line_from_string (b : LineBuffer) (s : List Char) : LineBuffer :=
  if s.length = 0 then { b with text := [], zlecs := 0 }
  else { text := s, zlecs := s.length, linesz := max b.linesz (s.length + 1) }

/-- `HISTORY_MAX` from `zle_interactive.c`. -/
def HISTORY_MAX : Nat := 100

/-- `history_add` from `zle_interactive.c`: skip empty lines and verbatim
duplicates of the immediately preceding entry; at the retained maximum, evict
the oldest entry before appending. -/
def history_add (hist : List (List Char)) (line : List Char) : List (List Char) :=
  if line = [] then hist
  else if hist.getLast? = some line then hist
  else if HISTORY_MAX ≤ hist.length then hist.tail ++ [line]
  else hist ++ [line]

/-- `strstr(s, pat) != NULL`: `pat` occurs in `s` as a contiguous substring. -/
def hasSub (s pat : List Char) : Bool := decide (pat <:+: s)

/-- The backward scan of `reverse_search`: `for (i = search_pos - 1; i >= 0;
i--) if (strstr(history[i], search_buf)) { found_pos = i; break; }`. -/
def searchBack (hist : List (List Char)) (pat : List Char) : Nat → Option Nat
  | 0 => none
  | n + 1 => if hasSub (hist.getD n []) pat then some n else searchBack hist pat n

/-- The buffer invariant from the spec: `0 <= cursor <= length <= capacity`
(the lower bound is inherent in `Nat`). -/
def BufInv (b : LineBuffer) : Prop :=
  b.zlecs ≤ zlell b ∧ zlell b ≤ b.linesz

instance (b : LineBuffer) : Decidable (BufInv b) := by
  unfold BufInv; infer_instance

/-- The editing operations the interactive loop applies to the buffer:
character insertion, forward/backward deletion, and the guarded cursor
movements of `readline_zle`. -/
inductive EditOp
  | ins (c : Char)
  | insStr (s : List Char)
  | delF (n : Nat)
  | delB (n : Nat)
  | left
  | right
  | home
  | eol
deriving DecidableEq, Repr

/-- One editing step, with the cursor-movement guards exactly as written in
`readline_zle` (`if (zlecs > 0) zlecs--`, `if (zlecs < zlell) zlecs++`). -/
def applyOp (b : LineBuffer) : EditOp → LineBuffer
  | .ins c => insert_char b c
  | .insStr s => insert b s
  | .delF n => foredel b n
  | .delB n => backdel b n
  | .left => if 0 < b.zlecs then { b with zlecs := b.zlecs - 1 } else b
  | .right => if b.zlecs < zlell b then { b with zlecs := b.zlecs + 1 } else b
  | .home => { b with zlecs := 0 }
  | .eol => { b with zlecs := zlell b }

lemma length_spaceinline (b : LineBuffer) (ct : Nat) :
    zlell (spaceinline b ct) = zlell b + ct := by
  simp only [zlell, spaceinline, List.length_append, List.length_take,
    List.length_replicate, List.length_drop]
  omega

lemma bufInv_insert_char (b : LineBuffer) (c : Char) (h : BufInv b) :
    BufInv (insert_char b c) := by
  obtain ⟨h1, h2⟩ := h
  have hlen := length_spaceinline b 1
  constructor
  · simp only [insert_char, zlell, List.length_set]
    simp only [zlell] at hlen h1
    simp only [spaceinline] at hlen ⊢
    omega
  · simp only [insert_char, zlell, List.length_set]
    simp only [zlell] at hlen h2
    simp only [spaceinline] at hlen ⊢
    omega

lemma bufInv_insert (b : LineBuffer) (s : List Char) (h : BufInv b) :
    BufInv (insert b s) := by
  obtain ⟨h1, h2⟩ := h
  have hlen := length_spaceinline b s.length
  simp only [zlell, spaceinline] at hlen h1 h2 ⊢
  constructor
  · simp only [insert, spaceinline, zlell, List.length_append,
      List.length_take, List.length_drop, List.length_replicate]
    omega
  · simp only [insert, spaceinline, zlell, List.length_append,
      List.length_take, List.length_drop, List.length_replicate]
    omega

lemma bufInv_foredel (b : LineBuffer) (n : Nat) (h : BufInv b) :
    BufInv (foredel b n) := by
  obtain ⟨h1, h2⟩ := h
  simp only [zlell] at h1 h2
  constructor
  · simp only [foredel, zlell, List.length_append, List.length_take,
      List.length_drop]
    omega
  · simp only [foredel, zlell, List.length_append, List.length_take,
      List.length_drop]
    omega

lemma bufInv_backdel (b : LineBuffer) (n : Nat) (h : BufInv b) :
    BufInv (backdel b n) := by
  obtain ⟨h1, h2⟩ := h
  simp only [zlell] at h1 h2
  apply bufInv_foredel
  constructor
  · simp only [zlell]; omega
  · simp only [zlell]; exact h2

lemma bufInv_applyOp (b : LineBuffer) (op : EditOp) (h : BufInv b) :
    BufInv (applyOp b op) := by
  cases op with
  | ins c => exact bufInv_insert_char b c h
  | insStr s => exact bufInv_insert b s h
  | delF n => exact bufInv_foredel b n h
  | delB n => exact bufInv_backdel b n h
  | left =>
    obtain ⟨h1, h2⟩ := h
    simp only [applyOp]
    split <;> exact ⟨by simp only [zlell] at h1 ⊢; omega, h2⟩
  | right =>
    obtain ⟨h1, h2⟩ := h
    simp only [applyOp]
    split
    · exact ⟨by simp only [zlell] at *; omega, h2⟩
    · exact ⟨h1, h2⟩
  | home => exact ⟨Nat.zero_le _, h.2⟩
  | eol => exact ⟨Nat.le_refl _, h.2⟩

end Zle

/-- C1: for every sequence of editing operations (insert, delete_forward,
delete_backward, and the guarded cursor movements of the interactive loop)
applied to a line buffer satisfying `0 ≤ cursor ≤ length ≤ capacity`, the
invariant holds again after every operation: any prefix of the sequence is
itself a sequence, so preservation under `foldl` settles all intermediate
states, and in particular the guarded `left`/`right` moves never take the
cursor below 0 or past the current length. -/
theorem Zle.bufInv_foldl_applyOp (b : Zle.LineBuffer) (ops : List Zle.EditOp)
    (h : Zle.BufInv b) : Zle.BufInv (ops.foldl Zle.applyOp b) := by
  induction ops generalizing b with
  | nil => exact h
  | cons op ops ih => exact ih _ (Zle.bufInv_applyOp b op h)

namespace Zle

lemma insert_text (b : LineBuffer) (s : List Char) (h : b.zlecs ≤ zlell b) :
    (insert b s).text = b.text.take b.zlecs ++ s ++ b.text.drop b.zlecs ∧
    (insert b s).zlecs = b.zlecs + s.length := by
  have hc : (b.text.take b.zlecs).length = b.zlecs := by
    simp only [List.length_take]
    simp only [zlell] at h
    omega
  constructor
  · simp only [insert, spaceinline]
    have h1 : (b.text.take b.zlecs ++ List.replicate s.length ' '
        ++ b.text.drop b.zlecs).take b.zlecs = b.text.take b.zlecs := by
      rw [List.append_assoc]
      exact List.take_left' hc
    have h2 : (b.text.take b.zlecs ++ List.replicate s.length ' '
        ++ b.text.drop b.zlecs).drop (b.zlecs + s.length)
        = b.text.drop b.zlecs :=
      List.drop_left' (by simp [hc])
    rw [h1, h2]
  · simp only [insert, spaceinline]

lemma backdel_shape (X s D : List Char) (cap : Nat) :
    backdel { text := X ++ s ++ D, zlecs := X.length + s.length, linesz := cap }
        s.length
      = { text := X ++ D, zlecs := X.length, linesz := cap } := by
  have hmin : min s.length (X.length + s.length) = s.length := by omega
  simp only [backdel, foredel, hmin, Nat.add_sub_cancel]
  have hn2 : min s.length ((X ++ s ++ D).length - X.length) = s.length := by
    simp only [List.length_append]; omega
  rw [hn2]
  have h1 : (X ++ s ++ D).take X.length = X := by
    rw [List.append_assoc]; exact List.take_left X _
  have h2 : (X ++ s ++ D).drop (X.length + s.length) = D :=
    List.drop_left' (by simp)
  rw [h1, h2]

lemma backdel_shape_fields (B : LineBuffer) (X s D : List Char)
    (hT : B.text = X ++ s ++ D) (hC : B.zlecs = X.length + s.length) :
    (backdel B s.length).text = X ++ D ∧ (backdel B s.length).zlecs = X.length := by
  cases B with
  | mk t c z =>
    simp only at hT hC
    subst hT hC
    rw [backdel_shape]
    exact ⟨rfl, rfl⟩

end Zle

/-- C2: for every buffer state satisfying the cursor-within-length part of the
data-model invariant and every string `s`, `insert s` immediately followed by
`delete_backward (len s)` restores the buffer's prior `(text, length, cursor)`
state (length being `text.length`). -/
theorem Zle.insert_backdel_roundtrip (b : Zle.LineBuffer) (s : List Char)
    (h : b.zlecs ≤ Zle.zlell b) :
    (Zle.backdel (Zle.insert b s) s.length).text = b.text ∧
    (Zle.backdel (Zle.insert b s) s.length).zlecs = b.zlecs := by
  obtain ⟨ht, hc⟩ := Zle.insert_text b s h
  have htake : (b.text.take b.zlecs).length = b.zlecs := by
    simp only [List.length_take]
    simp only [Zle.zlell] at h
    omega
  obtain ⟨h1, h2⟩ := Zle.backdel_shape_fields (Zle.insert b s)
    (b.text.take b.zlecs) s (b.text.drop b.zlecs) ht (by rw [hc, htake])
  refine ⟨?_, ?_⟩
  · rw [h1]; exact List.take_append_drop _ _
  · rw [h2]; exact htake

/-- Witness for C2: the round trip evaluated at a concrete buffer and string. -/
theorem Zle.insert_backdel_roundtrip_witness :
    ({ text := ['a', 'b', 'c'], zlecs := 1, linesz := 8 } : Zle.LineBuffer).zlecs
      ≤ Zle.zlell { text := ['a', 'b', 'c'], zlecs := 1, linesz := 8 } ∧
    (Zle.backdel (Zle.insert { text := ['a', 'b', 'c'], zlecs := 1, linesz := 8 }
        ['x', 'y']) 2).text = ['a', 'b', 'c'] ∧
    (Zle.backdel (Zle.insert { text := ['a', 'b', 'c'], zlecs := 1, linesz := 8 }
        ['x', 'y']) 2).zlecs = 1 :=
  ⟨by decide, Zle.insert_backdel_roundtrip _ ['x', 'y'] (by decide)⟩

/-- Witness for C1: a concrete run of all operation kinds from a concrete
valid buffer, with the invariant checked by evaluation. -/
theorem Zle.bufInv_foldl_applyOp_witness :
    Zle.BufInv { text := ['h', 'i'], zlecs := 1, linesz := 4 } ∧
    Zle.BufInv (([Zle.EditOp.ins 'x', Zle.EditOp.insStr ['a', 'b'],
        Zle.EditOp.left, Zle.EditOp.right, Zle.EditOp.delB 2,
        Zle.EditOp.delF 1, Zle.EditOp.home, Zle.EditOp.eol]).foldl
      Zle.applyOp { text := ['h', 'i'], zlecs := 1, linesz := 4 }) :=
  ⟨by decide, Zle.bufInv_foldl_applyOp _ _ (by decide)⟩

namespace Zle

/-- The editing actions dispatched by the `readline_zle` loop, one per
recognized key; the trace of a run records each dispatched action. -/
inductive Action
  | selfInsert (c : Char)
  | acceptLine
  | up
  | down
  | left
  | right
  | home
  | eol
  | delChar
  | backDel
  | killEol
  | killLine
  | searchStart
  | searchAccept
  | searchCancel
deriving DecidableEq, Repr

/-- The control point of `readline_zle` between two `getchar()` calls:
`esc`/`escBracket`/`escDelete` are the nested reads of an escape sequence,
`search` is the nested `reverse_search` loop with its local state
(`search_buf`, `search_pos`, `found_pos`), and `done` is a returned result. -/
inductive Mode
  | normal
  | esc
  | escBracket
  | escDelete
  | search (sbuf : List Char) (spos : Nat) (found : Option Nat)
  | done (result : Option (List Char))
deriving DecidableEq, Repr

/-- The state of one `readline_zle` invocation: the line buffer, the history
log with the browse position `history_pos`, the `saved_line` slot, and the
control mode. -/
structure EState where
  buf : LineBuffer
  hist : List (List Char)
  histPos : Nat
  saved : List Char
  mode : Mode
deriving DecidableEq, Repr

/-- Up-arrow case of `readline_zle`: if `history_pos > 0`, save the current
line when still at the end of history, step back and load that entry. -/
def upArrow (st : EState) : EState :=
  if 0 < st.histPos then
    let saved' := if st.histPos = st.hist.length then st.buf.text else st.saved
    let pos' := st.histPos - 1
    { st with
      saved := saved',
      histPos := pos',
      buf := set_line_from_string st.buf (st.hist.getD pos' []) }
  else st

/-- Down-arrow case of `readline_zle`: if `history_pos < history_count`, step
forward; past the newest entry restore `saved_line`, otherwise load the
entry. -/
def downArrow (st : EState) : EState :=
  if st.histPos < st.hist.length then
    let pos' := st.histPos + 1
    if pos' = st.hist.length then
      { st with histPos := pos', buf := set_line_from_string st.buf st.saved }
    else
      { st with
        histPos := pos',
        buf := set_line_from_string st.buf (st.hist.getD pos' []) }
  else st

/-- One iteration of the `reverse_search` loop on input byte `c`, with local
state `search_buf = sbuf`, `search_pos = spos`, `found_pos = found`
(`none` standing for `-1`).  Every branch except the final catch-all
(`continue` in the C) re-runs the backward scan. -/
def searchStep (st : EState) (sbuf : List Char) (spos : Nat)
    (found : Option Nat) (c : Nat) : EState × List Action :=
  if c = 13 ∨ c = 10 then
    ({ st with
        buf := match found with
          | some i => set_line_from_string st.buf (st.hist.getD i [])
          | none => st.buf,
        mode := .normal }, [.searchAccept])
  else if c = 7 ∨ c = 27 then
    ({ st with mode := .normal }, [.searchCancel])
  else if c = 18 then
    let spos' := match found with
      | some i => if 0 < i then i else spos
      | none => spos
    ({ st with mode := .search sbuf spos' (searchBack st.hist sbuf spos') }, [])
  else if c = 127 ∨ c = 8 then
    if sbuf = [] then
      ({ st with mode := .search sbuf spos (searchBack st.hist sbuf spos) }, [])
    else
      let sbuf' := sbuf.dropLast
      let spos' := st.hist.length
      ({ st with mode := .search sbuf' spos' (searchBack st.hist sbuf' spos') },
        [])
  else if 32 ≤ c ∧ c < 127 then
    let sbuf' := if sbuf.length < 255 then sbuf ++ [Char.ofNat c] else sbuf
    ({ st with mode := .search sbuf' spos (searchBack st.hist sbuf' spos) }, [])
  else
    (st, [])

/-- The `switch (c)` of the main `readline_zle` loop in normal mode. -/
def normalStep (st : EState) (c : Nat) : EState × List Action :=
  if c = 13 ∨ c = 10 then
    ({ st with mode := .done (some st.buf.text) }, [.acceptLine])
  else if c = 3 then
    ({ st with mode := .done none }, [])
  else if c = 4 then
    if zlell st.buf = 0 then ({ st with mode := .done none }, [])
    else
      ({ st with buf := if st.buf.zlecs < zlell st.buf
          then foredel st.buf 1 else st.buf }, [.delChar])
  else if c = 1 then
    ({ st with buf := { st.buf with zlecs := 0 } }, [.home])
  else if c = 5 then
    ({ st with buf := { st.buf with zlecs := zlell st.buf } }, [.eol])
  else if c = 11 then
    ({ st with buf := if st.buf.zlecs < zlell st.buf
        then foredel st.buf (zlell st.buf - st.buf.zlecs) else st.buf },
      [.killEol])
  else if c = 18 then
    ({ st with mode := .search [] st.hist.length none }, [.searchStart])
  else if c = 21 then
    ({ st with buf := if 0 < zlell st.buf
        then foredel { st.buf with zlecs := 0 } (zlell st.buf) else st.buf },
      [.killLine])
  else if c = 127 ∨ c = 8 then
    ({ st with buf := if 0 < st.buf.zlecs
        then backdel st.buf 1 else st.buf }, [.backDel])
  else if c = 27 then
    ({ st with mode := .esc }, [])
  else if 32 ≤ c ∧ c < 127 then
    ({ st with buf := insert_char st.buf (Char.ofNat c) },
      [.selfInsert (Char.ofNat c)])
  else
    (st, [])

/-- The `switch (c)` on the third byte of an `ESC [` escape sequence. -/
def escBracketStep (st : EState) (c : Nat) : EState × List Action :=
  if c = 65 then ({ upArrow st with mode := .normal }, [.up])
  else if c = 66 then ({ downArrow st with mode := .normal }, [.down])
  else if c = 67 then
    ({ st with
        mode := .normal,
        buf := if st.buf.zlecs < zlell st.buf
          then { st.buf with zlecs := st.buf.zlecs + 1 } else st.buf },
      [.right])
  else if c = 68 then
    ({ st with
        mode := .normal,
        buf := if 0 < st.buf.zlecs
          then { st.buf with zlecs := st.buf.zlecs - 1 } else st.buf },
      [.left])
  else if c = 72 then
    ({ st with mode := .normal, buf := { st.buf with zlecs := 0 } }, [.home])
  else if c = 70 then
    ({ st with mode := .normal, buf := { st.buf with zlecs := zlell st.buf } },
      [.eol])
  else if c = 51 then
    ({ st with mode := .escDelete }, [])
  else
    ({ st with mode := .normal }, [])

/-- One byte of input fed to `readline_zle`: dispatch on the current control
mode exactly as the C does between consecutive `getchar()` calls. -/
def step (st : EState) (c : Nat) : EState × List Action :=
  match st.mode with
  | .done _ => (st, [])
  | .esc =>
    if c = 91 then ({ st with mode := .escBracket }, [])
    else ({ st with mode := .normal }, [])
  | .escBracket => escBracketStep st c
  | .escDelete =>
    ({ st with
        mode := .normal,
        buf := if st.buf.zlecs < zlell st.buf
          then foredel st.buf 1 else st.buf }, [.delChar])
  | .search sbuf spos found => searchStep st sbuf spos found c
  | .normal => normalStep st c

/-- Feed a list of input bytes, collecting the dispatched-action trace. -/
def run : EState → List Nat → EState × List Action
  | st, [] => (st, [])
  | st, c :: cs =>
    let p := step st c
    let q := run p.1 cs
    (q.1, p.2 ++ q.2)

/-- The state at the top of `readline_zle`: empty buffer of capacity 256,
`history_pos = history_count`, `saved_line` cleared. -/
def initState (hist : List (List Char)) : EState :=
  { buf := { text := [], zlecs := 0, linesz := 256 },
    hist := hist, histPos := hist.length, saved := [], mode := .normal }

/-- The escape sequences sent by the Left/Up/Down arrow keys. -/
def leftSeq : List Nat := [27, 91, 68]

/-- `ESC [ A`, the Up-arrow escape sequence. -/
def upSeq : List Nat := [27, 91, 65]

/-- `ESC [ B`, the Down-arrow escape sequence. -/
def downSeq : List Nat := [27, 91, 66]

/-- ASCII bytes of a string, as fed to the loop one `getchar()` at a time. -/
def bytesOf (s : String) : List Nat := s.toList.map Char.toNat

end Zle

/-- C3 counterexample: feeding the read loop the keystrokes for `"echo hi"`,
then Left-arrow twice, then `"X"`, then Enter, starting from an empty buffer,
accepts the line `"echo Xhi"` — not `"echo hXi"` as claimed: two Left-arrows
put the cursor before the `'h'` of `"hi"`, so `'X'` is inserted before it. -/
theorem Zle.run_echo_scenario_ne_claim :
    (Zle.run (Zle.initState [])
        (Zle.bytesOf "echo hi" ++ Zle.leftSeq ++ Zle.leftSeq ++ [88] ++ [13])).1.mode
      = Zle.Mode.done (some "echo Xhi".toList)
    ∧ "echo Xhi".toList ≠ "echo hXi".toList := by
  constructor
  · rfl
  · decide

/-- C3 (amended): starting from an empty line buffer, feeding the interactive
read loop the keystrokes for `"echo hi"`, then Left-arrow twice, then the
character `"X"`, then Enter, produces the accepted line `"echo Xhi"`, with the
cursor having sat just before the `'h'` of `"hi"` when `'X'` was inserted. -/
theorem Zle.run_echo_scenario :
    (Zle.run (Zle.initState [])
        (Zle.bytesOf "echo hi" ++ Zle.leftSeq ++ Zle.leftSeq ++ [88] ++ [13])).1.mode
      = Zle.Mode.done (some "echo Xhi".toList) := by
  rfl

/-- C8: from any state of the read loop in normal mode, feeding the byte
sequence `ESC`, `'['`, `'A'` dispatches exactly one action — the Up widget —
not two: the first two bytes only advance the escape-reading mode and dispatch
nothing, and the action is committed once the full sequence has been read. -/
theorem Zle.run_escape_up_dispatches_once (st : Zle.EState)
    (h : st.mode = Zle.Mode.normal) :
    (Zle.run st Zle.upSeq).2 = [Zle.Action.up] := by
  simp only [Zle.upSeq, Zle.run, Zle.step, h, Zle.normalStep]
  norm_num
  simp only [Zle.escBracketStep]
  norm_num

/-- Witness for C8: the concrete trace from a freshly initialized loop. -/
theorem Zle.run_escape_up_dispatches_once_witness :
    (Zle.run (Zle.initState [['m', 'a', 'k', 'e']]) Zle.upSeq).2
      = [Zle.Action.up] :=
  Zle.run_escape_up_dispatches_once (Zle.initState [['m', 'a', 'k', 'e']]) rfl

namespace Zle

lemma length_history_add_le (h : List (List Char)) (l : List Char)
    (hb : h.length ≤ HISTORY_MAX) : (history_add h l).length ≤ HISTORY_MAX := by
  unfold history_add
  split
  · exact hb
  · split
    · exact hb
    · split
      · next hfull =>
        simp only [List.length_append, List.length_tail, List.length_cons,
          List.length_nil, HISTORY_MAX] at hfull hb ⊢
        omega
      · next hroom =>
        simp only [List.length_append, List.length_cons, List.length_nil,
          HISTORY_MAX] at hroom hb ⊢
        omega

lemma length_foldl_history_add (h : List (List Char)) (lines : List (List Char))
    (hb : h.length ≤ HISTORY_MAX) :
    (lines.foldl history_add h).length ≤ HISTORY_MAX := by
  induction lines generalizing h with
  | nil => exact hb
  | cons l ls ih => exact ih _ (length_history_add_le h l hb)

end Zle

/-- C6: an accepted line is appended to the history unless it is empty or a
verbatim duplicate of the immediately preceding entry (in which cases the
history is unchanged), and in particular accepting `"a"`, `"b"`, `"b"` in
sequence leaves the retained history `["a", "b"]`, most recent last. -/
theorem Zle.history_add_dedup_spec :
    (∀ (h : List (List Char)) (l : List Char),
      l = [] ∨ h.getLast? = some l → Zle.history_add h l = h) ∧
    (∀ (h : List (List Char)) (l : List Char),
      l ≠ [] → h.getLast? ≠ some l → h.length < Zle.HISTORY_MAX →
      Zle.history_add h l = h ++ [l]) ∧
    ["a".toList, "b".toList, "b".toList].foldl Zle.history_add []
      = ["a".toList, "b".toList] := by
  refine ⟨?_, ?_, by decide⟩
  · intro h l hskip
    unfold Zle.history_add
    rcases hskip with h1 | h2
    · rw [if_pos h1]
    · by_cases hl : l = []
      · rw [if_pos hl]
      · rw [if_neg hl, if_pos h2]
  · intro h l hne hdup hlen
    unfold Zle.history_add
    rw [if_neg hne, if_neg hdup,
      if_neg (by simp only [Zle.HISTORY_MAX] at hlen ⊢; omega)]

/-- Witness for C6: duplicate-of-last and empty lines are dropped, a fresh
line is appended, at concrete inputs. -/
theorem Zle.history_add_dedup_spec_witness :
    Zle.history_add [['a']] ['a'] = [['a']] ∧
    Zle.history_add [['a']] [] = [['a']] ∧
    Zle.history_add [['a']] ['b'] = [['a']] ++ [['b']] :=
  ⟨Zle.history_add_dedup_spec.1 [['a']] ['a'] (Or.inr (by decide)),
   Zle.history_add_dedup_spec.1 [['a']] [] (Or.inl rfl),
   Zle.history_add_dedup_spec.2.1 [['a']] ['b'] (by decide) (by decide)
     (by decide)⟩

/-- C7: the history is bounded by `HISTORY_MAX = 100`: any sequence of
`history_add` calls starting from the empty log retains at most 100 entries,
and an add performed at the maximum (that is not itself skipped as empty or
duplicate) evicts exactly the oldest entry and appends the new line after the
retained newer entries, in order (FIFO). -/
theorem Zle.history_bounded_fifo :
    (∀ lines : List (List Char),
      (lines.foldl Zle.history_add []).length ≤ Zle.HISTORY_MAX) ∧
    (∀ (h : List (List Char)) (l : List Char),
      h.length = Zle.HISTORY_MAX → l ≠ [] → h.getLast? ≠ some l →
      Zle.history_add h l = h.tail ++ [l]) := by
  constructor
  · intro lines
    exact Zle.length_foldl_history_add [] lines (by decide)
  · intro h l hfull hne hdup
    unfold Zle.history_add
    rw [if_neg hne, if_neg hdup, if_pos (by omega)]

/-- Witness for C7: at a concrete full log of 100 entries, adding a fresh
line drops the oldest entry and appends the new one. -/
theorem Zle.history_bounded_fifo_witness :
    (List.replicate 100 (['a'] : List Char)).length = Zle.HISTORY_MAX ∧
    Zle.history_add (List.replicate 100 ['a']) ['b']
      = (List.replicate 100 (['a'] : List Char)).tail ++ [['b']] ∧
    (["x".toList, "y".toList].foldl Zle.history_add []).length
      ≤ Zle.HISTORY_MAX :=
  ⟨by decide,
   Zle.history_bounded_fifo.2 (List.replicate 100 ['a']) ['b'] (by decide)
     (by decide) (by decide),
   Zle.history_bounded_fifo.1 ["x".toList, "y".toList]⟩

namespace Zle

lemma run_append (st : EState) (xs ys : List Nat) :
    (run st (xs ++ ys)).1 = (run (run st xs).1 ys).1 := by
  induction xs generalizing st with
  | nil => rfl
  | cons c cs ih =>
    simp only [List.cons_append, run]
    exact ih _

lemma searchBack_eq_some (hist : List (List Char)) (pat : List Char) :
    ∀ n i, searchBack hist pat n = some i →
      i < n ∧ hasSub (hist.getD i []) pat = true := by
  intro n
  induction n with
  | zero =>
    intro i h
    simp [searchBack] at h
  | succ n ih =>
    intro i h
    simp only [searchBack] at h
    split at h
    · next hs =>
      injection h with h
      subst h
      exact ⟨Nat.lt_succ_self n, hs⟩
    · obtain ⟨h1, h2⟩ := ih i h
      exact ⟨Nat.lt_succ_of_lt h1, h2⟩

lemma searchBack_eq_some_iff (hist : List (List Char)) (pat : List Char) :
    ∀ n i, searchBack hist pat n = some i ↔
      (i < n ∧ hasSub (hist.getD i []) pat = true ∧
       ∀ j, i < j → j < n → hasSub (hist.getD j []) pat = false) := by
  intro n
  induction n with
  | zero =>
    intro i
    constructor
    · intro h; simp [searchBack] at h
    · rintro ⟨h1, -, -⟩; exact absurd h1 (Nat.not_lt_zero i)
  | succ n ih =>
    intro i
    simp only [searchBack]
    split
    · next hs =>
      constructor
      · intro h
        injection h with h
        subst h
        exact ⟨Nat.lt_succ_self _, hs, fun j hj1 hj2 => absurd hj2 (by omega)⟩
      · rintro ⟨h1, h2, h3⟩
        rcases Nat.lt_or_ge i n with hin | hin
        · exact absurd hs (by rw [h3 n hin (Nat.lt_succ_self n)]; simp)
        · have : i = n := by omega
          rw [this]
    · next hs =>
      have hs' : hasSub (hist.getD n []) pat = false :=
        Bool.not_eq_true _ ▸ (by simpa using hs)
      rw [ih i]
      constructor
      · rintro ⟨h1, h2, h3⟩
        refine ⟨Nat.lt_succ_of_lt h1, h2, fun j hj1 hj2 => ?_⟩
        rcases Nat.lt_or_ge j n with hjn | hjn
        · exact h3 j hj1 hjn
        · have : j = n := by omega
          rw [this]; exact hs'
      · rintro ⟨h1, h2, h3⟩
        have hin : i ≠ n := by
          intro he
          rw [he] at h2
          rw [h2] at hs'
          cases hs'
        refine ⟨by omega, h2, fun j hj1 hj2 => h3 j hj1 (by omega)⟩

lemma estate_update_mode_self (st : EState) (m : Mode) (h : st.mode = m) :
    { st with mode := m } = st := by
  cases st
  simp only at h
  rw [h]

end Zle

namespace Zle

/-- The search pattern currently typed in reverse-search mode. -/
def searchPat : Mode → List Char
  | .search sbuf _ _ => sbuf
  | _ => []

lemma getD_mem (l : List (List Char)) (i : Nat) (h : i < l.length) :
    l.getD i [] ∈ l := by
  rw [List.getD_eq_getElem l [] h]
  exact List.getElem_mem h

lemma searchBack_found_prop (hist : List (List Char)) (pat : List Char)
    (n : Nat) (hn : n ≤ hist.length) :
    ∀ i, searchBack hist pat n = some i → i < hist.length ∧
      hasSub (hist.getD i []) pat = true := by
  intro i hi
  obtain ⟨h1, h2⟩ := searchBack_eq_some hist pat n i hi
  exact ⟨Nat.lt_of_lt_of_le h1 hn, h2⟩

lemma searchStep_not_exit (st : EState) (sbuf : List Char) (spos : Nat)
    (found : Option Nat) (c : Nat)
    (hmode : st.mode = .search sbuf spos found)
    (h13 : c ≠ 13) (h10 : c ≠ 10) (h7 : c ≠ 7) (h27 : c ≠ 27)
    (hspos : spos ≤ st.hist.length)
    (hfound : ∀ i, found = some i → i < st.hist.length ∧
      hasSub (st.hist.getD i []) sbuf = true) :
    ∃ sbuf' spos' found',
      (step st c).1 = { st with mode := .search sbuf' spos' found' } ∧
      spos' ≤ st.hist.length ∧
      (∀ i, found' = some i → i < st.hist.length ∧
        hasSub (st.hist.getD i []) sbuf' = true) := by
  have hstep : step st c = searchStep st sbuf spos found c := by
    simp only [step, hmode]
  rw [hstep]
  unfold searchStep
  rw [if_neg (by omega : ¬(c = 13 ∨ c = 10)), if_neg (by omega : ¬(c = 7 ∨ c = 27))]
  by_cases hc18 : c = 18
  · rw [if_pos hc18]
    cases found with
    | none =>
      exact ⟨sbuf, spos, _, rfl, hspos,
        searchBack_found_prop st.hist sbuf spos hspos⟩
    | some k =>
      have hk : k < st.hist.length := (hfound k rfl).1
      by_cases hk0 : 0 < k
      · refine ⟨sbuf, k, _, ?_, Nat.le_of_lt hk,
          searchBack_found_prop st.hist sbuf k (Nat.le_of_lt hk)⟩
        simp only [hk0, if_pos]
      · refine ⟨sbuf, spos, _, ?_, hspos,
          searchBack_found_prop st.hist sbuf spos hspos⟩
        simp only [if_neg hk0]
  · rw [if_neg hc18]
    by_cases hbsp : c = 127 ∨ c = 8
    · rw [if_pos hbsp]
      by_cases hempty : sbuf = []
      · rw [if_pos hempty]
        exact ⟨sbuf, spos, _, rfl, hspos,
          searchBack_found_prop st.hist sbuf spos hspos⟩
      · rw [if_neg hempty]
        exact ⟨sbuf.dropLast, st.hist.length, _, rfl, Nat.le_refl _,
          searchBack_found_prop st.hist sbuf.dropLast st.hist.length
            (Nat.le_refl _)⟩
    · rw [if_neg hbsp]
      by_cases hpr : 32 ≤ c ∧ c < 127
      · rw [if_pos hpr]
        exact ⟨_, spos, _, rfl, hspos,
          searchBack_found_prop st.hist _ spos hspos⟩
      · rw [if_neg hpr]
        exact ⟨sbuf, spos, found,
          (estate_update_mode_self st _ hmode).symm, hspos, hfound⟩

lemma run_search_frame (bs : List Nat) :
    ∀ (st : EState) (sbuf : List Char) (spos : Nat) (found : Option Nat),
    st.mode = .search sbuf spos found →
    (∀ c ∈ bs, c ≠ 13 ∧ c ≠ 10 ∧ c ≠ 7 ∧ c ≠ 27) →
    spos ≤ st.hist.length →
    (∀ i, found = some i → i < st.hist.length ∧
      hasSub (st.hist.getD i []) sbuf = true) →
    ∃ sbuf' spos' found',
      (run st bs).1 = { st with mode := .search sbuf' spos' found' } ∧
      spos' ≤ st.hist.length ∧
      (∀ i, found' = some i → i < st.hist.length ∧
        hasSub (st.hist.getD i []) sbuf' = true) := by
  induction bs with
  | nil =>
    intro st sbuf spos found hmode _ hspos hfound
    exact ⟨sbuf, spos, found, (estate_update_mode_self st _ hmode).symm,
      hspos, hfound⟩
  | cons c cs ih =>
    intro st sbuf spos found hmode hbs hspos hfound
    obtain ⟨h13, h10, h7, h27⟩ := hbs c (List.mem_cons_self c cs)
    obtain ⟨s1, p1, f1, hst1, hp1, hf1⟩ :=
      searchStep_not_exit st sbuf spos found c hmode h13 h10 h7 h27 hspos hfound
    have hrun : (run st (c :: cs)).1 = (run (step st c).1 cs).1 := rfl
    rw [hrun, hst1]
    obtain ⟨s2, p2, f2, h2, hp2, hf2⟩ :=
      ih { st with mode := .search s1 p1 f1 } s1 p1 f1 rfl
        (fun d hd => hbs d (List.mem_cons_of_mem c hd)) hp1 hf1
    exact ⟨s2, p2, f2, h2, hp2, hf2⟩

end Zle

namespace Zle

lemma step_enter_search (st : EState) (hmode : st.mode = Mode.normal) :
    (step st 18).1 = { st with mode := .search [] st.hist.length none } := by
  simp only [step, hmode, normalStep]
  norm_num

end Zle

/-- C5: cancelling reverse incremental search with Ctrl+G or Escape restores
the line buffer to exactly its pre-search content — `(text, length, cursor)`
(indeed the whole buffer record) are unchanged from before search mode was
entered, whatever search keys were typed in between — and editing returns to
normal mode. -/
theorem Zle.reverse_search_cancel_frame (st : Zle.EState) (bs : List Nat)
    (c0 : Nat) (hmode : st.mode = Zle.Mode.normal)
    (hbs : ∀ c ∈ bs, c ≠ 13 ∧ c ≠ 10 ∧ c ≠ 7 ∧ c ≠ 27)
    (hc0 : c0 = 7 ∨ c0 = 27) :
    (Zle.run st (18 :: (bs ++ [c0]))).1.buf = st.buf ∧
    (Zle.run st (18 :: (bs ++ [c0]))).1.mode = Zle.Mode.normal := by
  have hrun : (Zle.run st (18 :: (bs ++ [c0]))).1
      = (Zle.run (Zle.step st 18).1 (bs ++ [c0])).1 := rfl
  rw [hrun, Zle.step_enter_search st hmode,
    Zle.run_append { st with mode := .search [] st.hist.length none } bs [c0]]
  obtain ⟨s', p', f', h2, hp', hf'⟩ :=
    Zle.run_search_frame bs { st with mode := .search [] st.hist.length none }
      [] st.hist.length none rfl hbs (Nat.le_refl _) (fun i h => nomatch h)
  rw [h2]
  have hcancel : (Zle.run { st with mode := .search s' p' f' } [c0]).1
      = { st with mode := Zle.Mode.normal } := by
    have : (Zle.run { st with mode := .search s' p' f' } [c0]).1
        = (Zle.step { st with mode := .search s' p' f' } c0).1 := rfl
    rw [this]
    simp only [Zle.step, Zle.searchStep]
    rw [if_neg (by omega : ¬(c0 = 13 ∨ c0 = 10)), if_pos hc0]
  rw [hcancel]
  exact ⟨rfl, rfl⟩

/-- Witness for C5: a concrete search session — enter search, type `'b'`,
press Ctrl+R, erase with Backspace, then cancel with Ctrl+G — leaves a
concrete two-entry-history state's buffer untouched. -/
theorem Zle.reverse_search_cancel_frame_witness :
    (Zle.run (Zle.initState [['a'], ['b']]) (18 :: ([98, 18, 127] ++ [7]))).1.buf
      = (Zle.initState [['a'], ['b']]).buf ∧
    (Zle.run (Zle.initState [['a'], ['b']]) (18 :: ([98, 18, 127] ++ [7]))).1.mode
      = Zle.Mode.normal :=
  Zle.reverse_search_cancel_frame (Zle.initState [['a'], ['b']]) [98, 18, 127] 7
    rfl (by decide) (Or.inl rfl)

/-- C10: pressing Enter in reverse incremental search while no history entry
contains the current search pattern leaves the line buffer completely
unchanged (and returns to normal editing): the buffer is replaced only when a
matching entry was found. -/
theorem Zle.reverse_search_accept_nomatch (st : Zle.EState) (bs : List Nat)
    (hmode : st.mode = Zle.Mode.normal)
    (hbs : ∀ c ∈ bs, c ≠ 13 ∧ c ≠ 10 ∧ c ≠ 7 ∧ c ≠ 27)
    (hnom : ∀ e ∈ st.hist,
      Zle.hasSub e (Zle.searchPat (Zle.run st (18 :: bs)).1.mode) = false) :
    (Zle.run st (18 :: (bs ++ [13]))).1.buf = st.buf ∧
    (Zle.run st (18 :: (bs ++ [13]))).1.mode = Zle.Mode.normal := by
  obtain ⟨s', p', f', h2, hp', hf'⟩ :=
    Zle.run_search_frame bs { st with mode := .search [] st.hist.length none }
      [] st.hist.length none rfl hbs (Nat.le_refl _) (fun i h => nomatch h)
  have hbsrun : (Zle.run st (18 :: bs)).1
      = (Zle.run { st with mode := .search [] st.hist.length none } bs).1 := by
    have : (Zle.run st (18 :: bs)).1
        = (Zle.run (Zle.step st 18).1 bs).1 := rfl
    rw [this, Zle.step_enter_search st hmode]
  have hpat : Zle.searchPat (Zle.run st (18 :: bs)).1.mode = s' := by
    rw [hbsrun, h2]
    rfl
  rw [hpat] at hnom
  have hfnone : f' = none := by
    cases hf2 : f' with
    | none => rfl
    | some i =>
      obtain ⟨hi, hsub⟩ := hf' i hf2
      have := hnom (st.hist.getD i []) (Zle.getD_mem st.hist i hi)
      rw [this] at hsub
      cases hsub
  have hrun : (Zle.run st (18 :: (bs ++ [13]))).1
      = (Zle.run (Zle.step st 18).1 (bs ++ [13])).1 := rfl
  rw [hrun, Zle.step_enter_search st hmode,
    Zle.run_append { st with mode := .search [] st.hist.length none } bs [13]]
  rw [h2, hfnone]
  have haccept : (Zle.run { st with mode := .search s' p' none } [13]).1
      = { st with mode := Zle.Mode.normal } := by
    have : (Zle.run { st with mode := .search s' p' none } [13]).1
        = (Zle.step { st with mode := .search s' p' none } 13).1 := rfl
    rw [this]
    simp only [Zle.step, Zle.searchStep]
    norm_num
  rw [haccept]
  exact ⟨rfl, rfl⟩

/-- Witness for C10: entering search over history `["a"]` and typing `'b'`
(which matches nothing), then Enter, leaves a concrete state's buffer
untouched and returns to normal mode. -/
theorem Zle.reverse_search_accept_nomatch_witness :
    (Zle.run (Zle.initState [['a']]) (18 :: ([98] ++ [13]))).1.buf
      = (Zle.initState [['a']]).buf ∧
    (Zle.run (Zle.initState [['a']]) (18 :: ([98] ++ [13]))).1.mode
      = Zle.Mode.normal :=
  Zle.reverse_search_accept_nomatch (Zle.initState [['a']]) [98] rfl
    (by decide) (by decide)

namespace Zle

lemma step_search_printable (st : EState) (sbuf : List Char) (spos : Nat)
    (found : Option Nat) (c : Nat) (hmode : st.mode = .search sbuf spos found)
    (hc1 : 32 ≤ c) (hc2 : c < 127) (hroom : sbuf.length < 255) :
    (step st c).1 = { st with
        mode := .search (sbuf ++ [Char.ofNat c]) spos
                  (searchBack st.hist (sbuf ++ [Char.ofNat c]) spos) } := by
  simp only [step, hmode]
  unfold searchStep
  rw [if_neg (by omega : ¬(c = 13 ∨ c = 10)),
    if_neg (by omega : ¬(c = 7 ∨ c = 27)),
    if_neg (by omega : ¬c = 18),
    if_neg (by omega : ¬(c = 127 ∨ c = 8)),
    if_pos ⟨hc1, hc2⟩]
  rw [if_pos hroom]

lemma run_search_typing (cs : List Nat) :
    ∀ (st : EState) (sbuf : List Char) (spos : Nat) (found : Option Nat),
    st.mode = .search sbuf spos found →
    (∀ c ∈ cs, 32 ≤ c ∧ c < 127) →
    sbuf.length + cs.length ≤ 255 →
    cs ≠ [] →
    (run st cs).1 = { st with
        mode := .search (sbuf ++ cs.map Char.ofNat) spos
                  (searchBack st.hist (sbuf ++ cs.map Char.ofNat) spos) } := by
  induction cs with
  | nil =>
    intro _ _ _ _ _ _ _ hne
    exact absurd rfl hne
  | cons c cs ih =>
    intro st sbuf spos found hmode hpr hlen _
    obtain ⟨hc1, hc2⟩ := hpr c (List.mem_cons_self c cs)
    have hstep := step_search_printable st sbuf spos found c hmode hc1 hc2
      (by simp only [List.length_cons] at hlen; omega)
    cases cs with
    | nil =>
      have h0 : (run st [c]).1 = (step st c).1 := rfl
      rw [h0, hstep]
      simp only [List.map_cons, List.map_nil]
    | cons d ds =>
      have h0 : (run st (c :: d :: ds)).1 = (run (step st c).1 (d :: ds)).1 := rfl
      rw [h0, hstep]
      rw [ih { st with mode := .search (sbuf ++ [Char.ofNat c]) spos (searchBack st.hist (sbuf ++ [Char.ofNat c]) spos) }
          (sbuf ++ [Char.ofNat c]) spos _ rfl
          (fun e he => hpr e (List.mem_cons_of_mem c he))
          (by simp only [List.length_append, List.length_cons,
            List.length_singleton, List.length_nil] at hlen ⊢; omega)
          (by simp)]
      simp only [List.map_cons, List.append_assoc, List.singleton_append]

end Zle

namespace Zle

lemma step_search_accept_found (st : EState) (sbuf : List Char) (spos : Nat)
    (i : Nat) (hmode : st.mode = .search sbuf spos (some i)) :
    (step st 13).1 = { st with
      buf := set_line_from_string st.buf (st.hist.getD i []),
      mode := Mode.normal } := by
  simp only [step, hmode]
  unfold searchStep
  rw [if_pos (Or.inl rfl)]

end Zle

/-- C4: in reverse incremental search, for every history log and every typed
search pattern (nonempty printable characters within the 255-byte search
buffer), the selected entry is exactly the most recent history entry
containing the pattern as a substring (the backward scan from the newest
entry finds index `i` iff entry `i` matches and no newer entry does); and
accepting the search with Enter replaces the line buffer contents with that
entry's text, returns to normal editing, and puts the cursor at the end of
the line. -/
theorem Zle.reverse_search_most_recent (st : Zle.EState) (pat : List Nat)
    (hmode : st.mode = Zle.Mode.normal) (hne : pat ≠ [])
    (hpr : ∀ c ∈ pat, 32 ≤ c ∧ c < 127) (hlen : pat.length ≤ 255) :
    (∀ i, Zle.searchBack st.hist (pat.map Char.ofNat) st.hist.length = some i ↔
      (i < st.hist.length ∧
       Zle.hasSub (st.hist.getD i []) (pat.map Char.ofNat) = true ∧
       ∀ j, i < j → j < st.hist.length →
         Zle.hasSub (st.hist.getD j []) (pat.map Char.ofNat) = false)) ∧
    (∀ i, Zle.searchBack st.hist (pat.map Char.ofNat) st.hist.length = some i →
      (Zle.run st (18 :: (pat ++ [13]))).1.buf.text = st.hist.getD i [] ∧
      (Zle.run st (18 :: (pat ++ [13]))).1.buf.zlecs
        = (st.hist.getD i []).length ∧
      (Zle.run st (18 :: (pat ++ [13]))).1.mode = Zle.Mode.normal) := by
  constructor
  · exact Zle.searchBack_eq_some_iff st.hist (pat.map Char.ofNat) st.hist.length
  · intro i hi
    obtain ⟨hilt, hisub⟩ :=
      Zle.searchBack_eq_some st.hist (pat.map Char.ofNat) st.hist.length i hi
    have hpatC : pat.map Char.ofNat ≠ [] := by
      simp only [ne_eq, List.map_eq_nil_iff]
      exact hne
    have hentry : st.hist.getD i [] ≠ [] := by
      intro he
      rw [he] at hisub
      have hinf : (pat.map Char.ofNat) <:+: ([] : List Char) :=
        of_decide_eq_true hisub
      exact hpatC (List.infix_nil.mp hinf)
    have hrun : (Zle.run st (18 :: (pat ++ [13]))).1
        = (Zle.run (Zle.step st 18).1 (pat ++ [13])).1 := rfl
    have hX : (Zle.run { st with mode := Zle.Mode.search [] st.hist.length none } pat).1
        = { st with mode := Zle.Mode.search (pat.map Char.ofNat) st.hist.length (some i) } := by
      rw [Zle.run_search_typing pat
        { st with mode := Zle.Mode.search [] st.hist.length none }
        [] st.hist.length none rfl hpr (by simpa) hne]
      simp only [List.nil_append, hi]
    rw [hrun, Zle.step_enter_search st hmode, Zle.run_append _ pat [13], hX]
    have h13 : (Zle.run { st with mode := Zle.Mode.search (pat.map Char.ofNat) st.hist.length (some i) } [13]).1
        = (Zle.step { st with mode := Zle.Mode.search (pat.map Char.ofNat) st.hist.length (some i) } 13).1 := rfl
    rw [h13, Zle.step_search_accept_found _ _ _ i rfl]
    have hlen0 : ¬(st.hist.getD i []).length = 0 := by
      intro h0
      exact hentry (List.length_eq_zero.mp h0)
    refine ⟨?_, ?_, rfl⟩
    · simp only [Zle.set_line_from_string, if_neg hlen0]
    · simp only [Zle.set_line_from_string, if_neg hlen0]

/-- Witness for C4: with history `["make build", "make test", "git status"]`,
typing `"mak"` selects `"make test"` (index 1, the most recent match), and
accepting loads it with the cursor at its end, back in normal mode. -/
theorem Zle.reverse_search_most_recent_witness :
    (Zle.run (Zle.initState ["make build".toList, "make test".toList,
        "git status".toList]) (18 :: (Zle.bytesOf "mak" ++ [13]))).1.buf.text
      = "make test".toList ∧
    (Zle.run (Zle.initState ["make build".toList, "make test".toList,
        "git status".toList]) (18 :: (Zle.bytesOf "mak" ++ [13]))).1.buf.zlecs
      = "make test".toList.length ∧
    (Zle.run (Zle.initState ["make build".toList, "make test".toList,
        "git status".toList]) (18 :: (Zle.bytesOf "mak" ++ [13]))).1.mode
      = Zle.Mode.normal := by
  have h := Zle.reverse_search_most_recent
    (Zle.initState ["make build".toList, "make test".toList,
      "git status".toList]) (Zle.bytesOf "mak") rfl (by decide) (by decide)
    (by decide)
  exact (h.2 1 (by rfl))

namespace Zle

/-- The byte stream of a sequence of Up (`true`) / Down (`false`) arrow
presses. -/
def navBytes (presses : List Bool) : List Nat :=
  (presses.map (fun b => if b then upSeq else downSeq)).flatten

lemma run_upSeq (st : EState) (h : st.mode = Mode.normal) :
    (run st upSeq).1 = { upArrow st with mode := Mode.normal } := by
  have h1 : (step st 27).1 = { st with mode := Mode.esc } := by
    simp only [step, h, normalStep]
    norm_num
  have h3 : (run st upSeq).1 = (step { st with mode := Mode.escBracket } 65).1 := by
    show (run st [27, 91, 65]).1 = _
    have e1 : (run st [27, 91, 65]).1 = (run (step st 27).1 [91, 65]).1 := rfl
    rw [e1, h1]
    rfl
  rw [h3]
  simp only [step, escBracketStep]
  norm_num
  cases st with
  | mk b hh hp sv m =>
    simp only [upArrow]
    by_cases h0 : 0 < hp
    · rw [if_pos h0, if_pos h0]
      exact ⟨rfl, rfl, rfl, rfl⟩
    · rw [if_neg h0, if_neg h0]
      exact ⟨rfl, rfl, rfl, rfl⟩

lemma run_downSeq (st : EState) (h : st.mode = Mode.normal) :
    (run st downSeq).1 = { downArrow st with mode := Mode.normal } := by
  have h1 : (step st 27).1 = { st with mode := Mode.esc } := by
    simp only [step, h, normalStep]
    norm_num
  have h3 : (run st downSeq).1
      = (step { st with mode := Mode.escBracket } 66).1 := by
    show (run st [27, 91, 66]).1 = _
    have e1 : (run st [27, 91, 66]).1 = (run (step st 27).1 [91, 66]).1 := rfl
    rw [e1, h1]
    rfl
  rw [h3]
  simp only [step, escBracketStep]
  norm_num
  cases st with
  | mk b hh hp sv m =>
    simp only [downArrow]
    by_cases h0 : hp < hh.length
    · rw [if_pos h0, if_pos h0]
      split <;> exact ⟨rfl, rfl, rfl, rfl⟩
    · rw [if_neg h0, if_neg h0]
      exact ⟨rfl, rfl, rfl, rfl⟩

/-- The invariant maintained by history navigation once the in-progress line
`orig` has been saved: normal mode, history and `saved_line` untouched,
`history_pos` in range, and whenever `history_pos` is back past the newest
entry the buffer holds `orig` with the cursor at its end. -/
def NavInv (orig : List Char) (hist : List (List Char)) (st : EState) : Prop :=
  st.mode = Mode.normal ∧ st.hist = hist ∧ st.saved = orig ∧
  st.histPos ≤ hist.length ∧
  (st.histPos = hist.length → st.buf.text = orig ∧ st.buf.zlecs = orig.length)

lemma navInv_upSeq (orig : List Char) (hist : List (List Char)) (st : EState)
    (hI : NavInv orig hist st) : NavInv orig hist (run st upSeq).1 := by
  obtain ⟨hm, hh, hs, hple, hend⟩ := hI
  rw [run_upSeq st hm]
  unfold upArrow
  by_cases hp : 0 < st.histPos
  · rw [if_pos hp]
    subst hh
    refine ⟨rfl, rfl, ?_, by simp only; omega, fun hfin => ?_⟩
    · simp only
      split
      · next hq => exact (hend hq).1
      · exact hs
    · simp only at hfin
      omega
  · rw [if_neg hp]
    exact ⟨rfl, hh, hs, hple, hend⟩

lemma navInv_downSeq (orig : List Char) (hist : List (List Char)) (st : EState)
    (hI : NavInv orig hist st) : NavInv orig hist (run st downSeq).1 := by
  obtain ⟨hm, hh, hs, hple, hend⟩ := hI
  rw [run_downSeq st hm]
  unfold downArrow
  by_cases hp : st.histPos < st.hist.length
  · rw [if_pos hp]
    subst hh
    by_cases hq : st.histPos + 1 = st.hist.length
    · rw [if_pos hq]
      refine ⟨rfl, rfl, hs, by simp only; omega, fun _ => ?_⟩
      simp only [set_line_from_string, hs]
      split
      · next h0 =>
        constructor
        · simp only
          exact (List.length_eq_zero.mp h0).symm
        · simp only
          omega
      · exact ⟨rfl, rfl⟩
    · rw [if_neg hq]
      refine ⟨rfl, rfl, hs, by simp only; omega, fun hfin => ?_⟩
      simp only at hfin
      exact absurd hfin hq
  · rw [if_neg hp]
    exact ⟨rfl, hh, hs, hple, hend⟩

lemma navInv_run (orig : List Char) (hist : List (List Char))
    (presses : List Bool) :
    ∀ st, NavInv orig hist st → NavInv orig hist (run st (navBytes presses)).1 := by
  induction presses with
  | nil => intro st hI; exact hI
  | cons b bs ih =>
    intro st hI
    cases b with
    | true =>
      have hsplit : navBytes (true :: bs) = upSeq ++ navBytes bs := by
        simp [navBytes]
      rw [hsplit, run_append]
      exact ih _ (navInv_upSeq orig hist st hI)
    | false =>
      have hsplit : navBytes (false :: bs) = downSeq ++ navBytes bs := by
        simp [navBytes]
      rw [hsplit, run_append]
      exact ih _ (navInv_downSeq orig hist st hI)

end Zle

/-- C9: in the read loop, pressing Up-arrow while editing a not-yet-submitted
line (history position at the end of a nonempty history) first saves that
line's text into `saved_line`; and after any further sequence of Up/Down
presses, whenever Down-arrow has moved past the newest history entry
(history position back at the end), the buffer holds exactly the saved
in-progress text with the cursor at its end. -/
theorem Zle.history_nav_roundtrip (st : Zle.EState) (presses : List Bool)
    (hmode : st.mode = Zle.Mode.normal)
    (hpos : st.histPos = st.hist.length)
    (hne : st.hist ≠ []) :
    (Zle.run st Zle.upSeq).1.saved = st.buf.text ∧
    ((Zle.run (Zle.run st Zle.upSeq).1 (Zle.navBytes presses)).1.histPos
        = st.hist.length →
      (Zle.run (Zle.run st Zle.upSeq).1 (Zle.navBytes presses)).1.buf.text
          = st.buf.text ∧
      (Zle.run (Zle.run st Zle.upSeq).1 (Zle.navBytes presses)).1.buf.zlecs
          = st.buf.text.length) := by
  have hlen0 : 0 < st.hist.length := List.length_pos.mpr hne
  have hI1 : Zle.NavInv st.buf.text st.hist (Zle.run st Zle.upSeq).1 := by
    rw [Zle.run_upSeq st hmode]
    unfold Zle.upArrow
    rw [if_pos (show 0 < st.histPos by omega)]
    refine ⟨rfl, rfl, ?_, ?_, ?_⟩
    · show (if st.histPos = st.hist.length then st.buf.text else st.saved)
        = st.buf.text
      rw [if_pos hpos]
    · show st.histPos - 1 ≤ st.hist.length
      omega
    · intro hbad
      have : st.histPos - 1 = st.hist.length := hbad
      omega
  have hI2 := Zle.navInv_run st.buf.text st.hist presses _ hI1
  refine ⟨hI1.2.2.1, fun hfin => ?_⟩
  exact hI2.2.2.2.2 hfin

/-- A concrete mid-edit state: in-progress line `"x"` with the cursor at 0,
history `["a"]`, history position at the end. -/
def Zle.navDemoState : Zle.EState :=
  { buf := { text := ['x'], zlecs := 0, linesz := 256 },
    hist := [['a']],
    histPos := 1,
    saved := [],
    mode := Zle.Mode.normal }

/-- Witness for C9: from a concrete in-progress line `"x"` (cursor not even at
the end) over history `["a"]`, pressing Up once saves `"x"`; pressing Down
moves past the newest entry and restores `"x"` with the cursor at its end. -/
theorem Zle.history_nav_roundtrip_witness :
    (Zle.run Zle.navDemoState Zle.upSeq).1.saved = ['x'] ∧
    (Zle.run (Zle.run Zle.navDemoState Zle.upSeq).1
      (Zle.navBytes [false])).1.buf.text = ['x'] ∧
    (Zle.run (Zle.run Zle.navDemoState Zle.upSeq).1
      (Zle.navBytes [false])).1.buf.zlecs = 1 := by
  have h := Zle.history_nav_roundtrip Zle.navDemoState [false] rfl rfl
    (by decide)
  exact ⟨h.1, (h.2 (by decide)).1, (h.2 (by decide)).2⟩
